import Mathlib

/-!
Verification of the merging (coalescing) free-list allocator in
crates/allocator/src/merging.rs.

The allocator keeps an intrusive singly-linked list of free blocks; each
node stores its size and a link to the next node, and lives at the start
address of the free memory it describes.  We embed the reachable chain of
nodes as a Lean list of (address, size) pairs, in link order.  Pointer
equality on nodes becomes equality of base addresses (two in-memory nodes
are the same node iff their addresses coincide).  Machine usize arithmetic
is embedded as Nat with the 2^64 bound made explicit where the source uses
checked arithmetic or bitwise masking; unchecked usize subtractions of the
source are modelled by truncated Nat subtraction, with the corresponding
no-underflow facts proved separately.
-/

namespace Merging

/-- Modelled from the spec: the error taxonomy of the allocator interface
(`AllocError` in the allocator crate's root module, which is not part of the
provided sources).  Section 7 of the design document lists OutOfMemory
(called `NoMemory` by the code's `AllocError::NoMemory`), InvalidParameter
(`InvalidParam`), and MemoryOverlap. -/
inductive AllocError where
  | InvalidParam
  | MemoryOverlap
  | NoMemory
deriving DecidableEq, Repr

/-- Number of values of the 64-bit usize type; `usize::MAX = USIZE - 1`.
`checked_add` returns `None` exactly when the sum is `≥ USIZE`. -/
def USIZE : Nat := 2 ^ 64

/-- Source: `const PAGE_SIZE: usize = 0x1000;`. -/
def PAGE_SIZE : Nat := 0x1000

/-- Fuel-driven helper for `next_power_of_two`: starting from power `p`,
keep doubling until `n ≤ p`.  Fuel `n` always suffices since `n ≤ 2 ^ n`. -/
def next_pow2_go (n : Nat) : Nat → Nat → Nat
  | 0, p => p
  | fuel + 1, p => if n ≤ p then p else next_pow2_go n fuel (2 * p)

/-- Embedding of Rust's `usize::next_power_of_two`: the least power of two
that is `≥ n` (and `1` for `n = 0` or `n = 1`). -/
def next_power_of_two (n : Nat) : Nat := next_pow2_go n n 1

/-- State of `MergingAllocatorInner`.  `free_list` is the chain of
`FreeBlock` nodes reachable from `head`, in link order, each node given by
its base address and its `size` field. -/
structure MergingAllocatorInner where
  free_list : List (Nat × Nat)
  total_bytes : Nat
  used_bytes : Nat
deriving DecidableEq, Repr

/-- State of `MergingAllocator::new()`: empty list, zero counters. -/
def newAllocator : MergingAllocatorInner := ⟨[], 0, 0⟩

/-- Source: `find_free_block` — first-fit scan from the head, returning the
first block whose `size` is at least the requested size. -/
def find_free_block (size : Nat) : List (Nat × Nat) → Option (Nat × Nat)
  | [] => none
  | c :: rest => if size ≤ c.2 then some c else find_free_block size rest

/-- Source: `insert_free_block` — walk from the head while the new block's
pointer is not less than the current node's pointer (i.e. while
`current.addr ≤ block.addr`), and splice the block in before the first node
whose address exceeds the new block's address (or at the tail). -/
def insert_free_block (b : Nat × Nat) : List (Nat × Nat) → List (Nat × Nat)
  | [] => [b]
  | c :: rest => if b.1 < c.1 then b :: c :: rest else c :: insert_free_block b rest

/-- Source: `remove_free_block` — unlink the first node equal (by pointer,
i.e. by base address) to the given block; no-op when absent. -/
def remove_free_block (a : Nat) : List (Nat × Nat) → List (Nat × Nat)
  | [] => []
  | c :: rest => if c.1 = a then rest else c :: remove_free_block a rest

/-- Reading a node's `size` field through its address: the size of the first
list entry at address `a` (nodes at the same address are the same node in
memory, so on lists with distinct addresses this is exact).  Defaults to 0
for an address not on the list; the embedding only reads addresses that are
on the list at the time of the read. -/
def size_at : List (Nat × Nat) → Nat → Nat
  | [], _ => 0
  | c :: rest, a => if c.1 = a then c.2 else size_at rest a

/-- Writing a node's `size` field through its address: replace the size of
the first entry at address `a`. -/
def set_size : List (Nat × Nat) → Nat → Nat → List (Nat × Nat)
  | [], _, _ => []
  | c :: rest, a, s => if c.1 = a then (a, s) :: rest else c :: set_size rest a s

/-- One pass of the loop of `merge_adjacent_blocks`.  The cursor of the
source walks the chain as it existed on entry (removing a node does not
clear that node's own `next` link, and the cursor continues through it), so
the scan visits exactly the addresses of the entry chain, in order, while
removals and size updates act on the current list.  For each visited node:
if its end equals the block's start the block absorbs its size and the node
is removed (scan continues); else if the block's start plus the block's
current size equals the node's start, the node absorbs the block's size,
the block is removed, and the scan stops. -/
def merge_scan (baddr : Nat) : List Nat → List (Nat × Nat) → List (Nat × Nat)
  | [], lst => lst
  | e :: rest, lst =>
    let es := size_at lst e
    let bs := size_at lst baddr
    if e + es = baddr then
      merge_scan baddr rest (remove_free_block e (set_size lst baddr (bs + es)))
    else if baddr + bs = e then
      remove_free_block baddr (set_size lst e (es + bs))
    else
      merge_scan baddr rest lst

/-- Source: `merge_adjacent_blocks`, scanning the whole list for nodes
adjacent to the block at address `baddr` (which is already on the list). -/
def merge_adjacent_blocks (baddr : Nat) (lst : List (Nat × Nat)) : List (Nat × Nat) :=
  merge_scan baddr (lst.map Prod.fst) lst

/-- Loop body of `checked_block`: for each node, `checked_add` of its
address and size (InvalidParam on usize overflow), then the half-open-range
intersection test `start < block_end && new_end > block_ptr`
(MemoryOverlap). -/
def checked_block_go (start new_end : Nat) : List (Nat × Nat) → Except AllocError Unit
  | [] => .ok ()
  | (a, s) :: rest =>
    if USIZE ≤ a + s then .error .InvalidParam
    else if start < a + s ∧ a < new_end then .error .MemoryOverlap
    else checked_block_go start new_end rest

/-- Source: `checked_block` — `start.checked_add(size)` first (InvalidParam
on usize overflow), then the per-node scan. -/
def checked_block (lst : List (Nat × Nat)) (start size : Nat) : Except AllocError Unit :=
  if USIZE ≤ start + size then .error .InvalidParam
  else checked_block_go start (start + size) lst

/-- Source: `init` (BaseAllocator impl) — write a `FreeBlock` header of the
given size at `start`, insert it, and set (overwrite) `total_bytes` to
`size`.  `used_bytes` is not touched. -/
def init (st : MergingAllocatorInner) (start size : Nat) : MergingAllocatorInner :=
  { st with free_list := insert_free_block (start, size) st.free_list
            total_bytes := size }

/-- Source: `add_memory` — run `checked_block`; on failure propagate the
error with no state mutation (the source mutates nothing before
`checked_block` succeeds, so a failure leaves list and counters unchanged);
on success insert the extent as one free block and add `size` to
`total_bytes`. -/
def add_memory (st : MergingAllocatorInner) (start size : Nat) :
    Except AllocError MergingAllocatorInner :=
  match checked_block st.free_list start size with
  | .error e => .error e
  | .ok _ => .ok { st with free_list := insert_free_block (start, size) st.free_list
                           total_bytes := st.total_bytes + size }

/-- Embedding of `(block_ptr + align - 1) & !(align - 1)`: bitwise NOT on
usize is XOR with `usize::MAX = USIZE - 1`.  Defined exactly as the source
computes it; arithmetic characterizations are proved, not assumed. -/
def aligned_ptr_calc (addr align : Nat) : Nat :=
  (addr + align - 1) &&& ((USIZE - 1) ^^^ (align - 1))

/-- Result of one `alloc` call.  `result` and `state` embed the source's
return value and post-state.  Two instrumentation fields record, without
altering the computation, what the call did internally: `page_request` is
the `(num_pages, align_pow2)` argument pair of the single possible
`alloc_pages` call into the page supplier, and `charged` is the amount the
call added to `used_bytes` (the source's `used_bytes += aligned_size`, or 0
on the error paths). -/
structure AllocOutcome where
  result : Except AllocError Nat
  state : MergingAllocatorInner
  page_request : Option (Nat × Nat)
  charged : Nat

/-- Tail of `alloc` once a free block `b` has been located: compute the
aligned pointer and the aligned size `block.size - (aligned_ptr - block_ptr)`
(an unchecked usize subtraction, embedded as truncated Nat subtraction);
when `aligned_size >= size` set the block's size to `aligned_size` and
remove it from the list (the size write lands on the node being unlinked, so
its only list-visible effect is the removal); otherwise leave the list
untouched.  Either way add `aligned_size` to `used_bytes` and return the
aligned pointer. -/
def alloc_finish (st : MergingAllocatorInner) (size align : Nat) (b : Nat × Nat)
    (req : Option (Nat × Nat)) : AllocOutcome :=
  let block_size := b.2
  let aligned := aligned_ptr_calc b.1 align
  let aligned_size := block_size - (aligned - b.1)
  let st' := if size ≤ aligned_size then
      { st with free_list := remove_free_block b.1 st.free_list }
    else st
  { result := .ok aligned
    state := { st' with used_bytes := st'.used_bytes + aligned_size }
    page_request := req
    charged := aligned_size }

/-- Source: `alloc` (ByteAllocator impl).  `size = layout.size().max(layout.align())`;
first-fit search; on a miss, grow: `expand_size = old_total.max(layout.size())
.next_power_of_two().max(PAGE_SIZE)`, request `expand_size / PAGE_SIZE` pages at
page alignment from the page supplier (modelled by the oracle `palloc`), register
`size` bytes of the result via `add_memory`, and retry the search exactly once.
Each `?` of the source propagates the error with the state unchanged up to the
mutations already performed. -/
def alloc (st : MergingAllocatorInner) (layout_size layout_align : Nat)
    (palloc : Nat → Nat → Except AllocError Nat) : AllocOutcome :=
  let size := max layout_size layout_align
  match find_free_block size st.free_list with
  | some b => alloc_finish st size layout_align b none
  | none =>
    let old_size := st.total_bytes
    let expand_size := max (next_power_of_two (max old_size layout_size)) PAGE_SIZE
    let req := (expand_size / PAGE_SIZE, PAGE_SIZE)
    match palloc req.1 req.2 with
    | .error e => { result := .error e, state := st, page_request := some req, charged := 0 }
    | .ok heap_ptr =>
      match add_memory st heap_ptr size with
      | .error e => { result := .error e, state := st, page_request := some req, charged := 0 }
      | .ok st' =>
        match find_free_block size st'.free_list with
        | none => { result := .error .NoMemory, state := st', page_request := some req,
                    charged := 0 }
        | some b => alloc_finish st' size layout_align b (some req)

/-- Source: `dealloc` — reinterpret the released memory as a `FreeBlock` of
size `layout.size().max(layout.align())`, insert it, coalesce, and subtract
that size from `used_bytes` (an unchecked usize subtraction, embedded as
truncated Nat subtraction). -/
def dealloc (st : MergingAllocatorInner) (pos layout_size layout_align : Nat) :
    MergingAllocatorInner :=
  let size := max layout_size layout_align
  { st with
    free_list := merge_adjacent_blocks pos (insert_free_block (pos, size) st.free_list)
    used_bytes := st.used_bytes - size }

/-- Source: `available_bytes` — the unguarded usize subtraction
`total_bytes - used_bytes`, embedded as truncated Nat subtraction (the
source value underflows when `used_bytes > total_bytes`). -/
def available_bytes (st : MergingAllocatorInner) : Nat :=
  st.total_bytes - st.used_bytes

/-- Page-supplier oracle granting every request at a fixed base address
(models a `BitmapPageAllocator` with that page run available). -/
def palloc_at (p : Nat) : Nat → Nat → Except AllocError Nat := fun _ _ => .ok p

/-- Page-supplier oracle that is exhausted: every request fails. -/
def palloc_none : Nat → Nat → Except AllocError Nat := fun _ _ => .error .NoMemory

/-- The address-order invariant of the free list: node addresses strictly
increase along the chain. -/
def SortedByAddr (l : List (Nat × Nat)) : Prop :=
  List.Pairwise (fun x y : Nat × Nat => x.1 < y.1) l

/-- Well-formedness of a free list as a set of memory blocks: the blocks
appear in address order and are pairwise disjoint (each block ends at or
before the next begins), and every block is nonempty.  This is the normal
operating regime of the allocator. -/
def ChainedBlocks (l : List (Nat × Nat)) : Prop :=
  List.Pairwise (fun x y : Nat × Nat => x.1 + x.2 ≤ y.1) l ∧ ∀ b ∈ l, 1 ≤ b.2

/-- Bounded, nonempty blocks: every node's end address fits in usize (true
of every block registered through the checked `add_memory` path) and every
block is nonempty. -/
def WFBlocks (l : List (Nat × Nat)) : Prop :=
  ∀ b ∈ l, b.1 + b.2 < USIZE ∧ 1 ≤ b.2

/-- Run `n` consecutive `alloc` calls with a fixed layout, returning whether
every call succeeded together with the final state. -/
def alloc_n (layout_size layout_align : Nat)
    (palloc : Nat → Nat → Except AllocError Nat) :
    Nat → MergingAllocatorInner → Bool × MergingAllocatorInner
  | 0, st => (true, st)
  | n + 1, st =>
    let o := alloc st layout_size layout_align palloc
    let r := alloc_n layout_size layout_align palloc n o.state
    ((match o.result with | .ok _ => true | .error _ => false) && r.1, r.2)

/-- A call of the byte-allocator interface, for stating trace properties. -/
inductive HeapOp where
  | allocOp (layout_size layout_align : Nat)
  | deallocOp (pos layout_size layout_align : Nat)

/-- Execute one interface call; also return the call's contribution to
`used_bytes` as an integer: an `alloc` adds the amount it charged (the
source's `used_bytes += aligned_size`; 0 on error paths), a `dealloc`
subtracts `max(layout.size, layout.align)`. -/
def run_op (palloc : Nat → Nat → Except AllocError Nat)
    (st : MergingAllocatorInner) : HeapOp → MergingAllocatorInner × Int
  | .allocOp ls la =>
    ((alloc st ls la palloc).state, ((alloc st ls la palloc).charged : Int))
  | .deallocOp pos ls la => (dealloc st pos ls la, -((max ls la : Nat) : Int))

/-- Execute a sequence of interface calls, accumulating the net integer
ledger of `used_bytes` contributions. -/
def run_ops (palloc : Nat → Nat → Except AllocError Nat) :
    List HeapOp → MergingAllocatorInner → MergingAllocatorInner × Int
  | [], st => (st, 0)
  | op :: rest, st =>
    let p := run_op palloc st op
    let q := run_ops palloc rest p.1
    (q.1, p.2 + q.2)

/-- Holds when no `dealloc` along the trace subtracts more than the current
`used_bytes` (the source's `used_bytes -= size` is an unchecked usize
subtraction, so this is the regime in which it does not underflow). -/
def no_underflow (palloc : Nat → Nat → Except AllocError Nat) :
    List HeapOp → MergingAllocatorInner → Bool
  | [], _ => true
  | op :: rest, st =>
    (match op with
     | .deallocOp _ ls la => decide (max ls la ≤ st.used_bytes)
     | .allocOp _ _ => true) && no_underflow palloc rest (run_op palloc st op).1

/-! Helper lemmas about the bitwise alignment mask.  The source rounds a
block address up to an alignment boundary with
`(ptr + align - 1) & !(align - 1)`; these lemmas characterize that
expression for a power-of-two alignment. -/

theorem mask_and_two_pow_sub_one (k : Nat) (hk : k ≤ 64) :
    ((USIZE - 1) ^^^ (2 ^ k - 1)) &&& (2 ^ k - 1) = 0 := by
  apply Nat.eq_of_testBit_eq
  intro i
  simp only [USIZE, Nat.testBit_and, Nat.testBit_xor, Nat.testBit_two_pow_sub_one,
    Nat.zero_testBit]
  by_cases hik : i < k
  · have hi64 : i < 64 := Nat.lt_of_lt_of_le hik hk
    simp [hik, hi64]
  · simp [hik]

theorem two_pow_dvd_aligned (a k : Nat) (hk : k ≤ 64) :
    2 ^ k ∣ aligned_ptr_calc a (2 ^ k) := by
  apply Nat.dvd_of_mod_eq_zero
  have h1 : aligned_ptr_calc a (2 ^ k) % 2 ^ k
      = aligned_ptr_calc a (2 ^ k) &&& (2 ^ k - 1) :=
    (Nat.and_pow_two_sub_one_eq_mod _ _).symm
  rw [h1]
  unfold aligned_ptr_calc
  rw [Nat.land_assoc, mask_and_two_pow_sub_one k hk, Nat.and_zero]

theorem land_mask_eq_div_mul (x k : Nat) (hk : k ≤ 64) (hx : x < USIZE) :
    x &&& ((USIZE - 1) ^^^ (2 ^ k - 1)) = x / 2 ^ k * 2 ^ k := by
  have hshift : x / 2 ^ k * 2 ^ k = (x >>> k) <<< k := by
    rw [Nat.shiftLeft_eq, Nat.shiftRight_eq_div_pow]
  rw [hshift]
  apply Nat.eq_of_testBit_eq
  intro i
  simp only [USIZE] at hx
  simp only [USIZE, Nat.testBit_and, Nat.testBit_xor, Nat.testBit_two_pow_sub_one,
    Nat.testBit_shiftLeft, Nat.testBit_shiftRight]
  by_cases hik : i < k
  · have hi64 : i < 64 := Nat.lt_of_lt_of_le hik hk
    have hnge : ¬ (i ≥ k) := Nat.not_le.mpr hik
    simp [hik, hi64, hnge]
  · have hge : i ≥ k := Nat.le_of_not_lt hik
    have hki : k + (i - k) = i := by omega
    by_cases hi64 : i < 64
    · simp [hik, hi64, hge, hki]
    · have hxi : Nat.testBit x i = false := by
        apply Nat.testBit_lt_two_pow
        calc x < 2 ^ 64 := hx
          _ ≤ 2 ^ i := Nat.pow_le_pow_right (by decide) (Nat.le_of_not_lt hi64)
      simp [hik, hi64, hge, hki, hxi]

theorem aligned_ptr_ge (a k : Nat) (hk : k ≤ 64) (hbound : a + 2 ^ k - 1 < USIZE) :
    a ≤ aligned_ptr_calc a (2 ^ k) := by
  unfold aligned_ptr_calc
  rw [land_mask_eq_div_mul _ k hk hbound]
  have hpos : 0 < 2 ^ k := Nat.two_pow_pos k
  have hmd := Nat.mod_add_div (a + 2 ^ k - 1) (2 ^ k)
  have hmlt : (a + 2 ^ k - 1) % 2 ^ k < 2 ^ k := Nat.mod_lt _ hpos
  have hmd' : 2 ^ k * ((a + 2 ^ k - 1) / 2 ^ k) + (a + 2 ^ k - 1) % 2 ^ k
      = a + 2 ^ k - 1 := by rw [Nat.add_comm]; exact hmd
  have h3 : a + 2 ^ k - 1 - (a + 2 ^ k - 1) % 2 ^ k
      = 2 ^ k * ((a + 2 ^ k - 1) / 2 ^ k) := Nat.sub_eq_of_eq_add hmd'.symm
  rw [Nat.mul_comm] at h3
  rw [← h3]
  omega

theorem aligned_ptr_le (a align : Nat) :
    aligned_ptr_calc a align ≤ a + align - 1 :=
  Nat.and_le_left

/-- A successful first-fit search returns a block of the list whose size is
at least the requested size (the loop condition of `find_free_block`). -/
theorem find_free_block_spec {size : Nat} :
    ∀ {l : List (Nat × Nat)} {b : Nat × Nat},
      find_free_block size l = some b → b ∈ l ∧ size ≤ b.2 := by
  intro l
  induction l with
  | nil => intro b h; simp [find_free_block] at h
  | cons c rest ih =>
    intro b h
    unfold find_free_block at h
    by_cases hc : size ≤ c.2
    · rw [if_pos hc] at h
      injection h with h
      subst h
      exact ⟨List.mem_cons_self _ _, hc⟩
    · rw [if_neg hc] at h
      obtain ⟨h1, h2⟩ := ih h
      exact ⟨List.mem_cons_of_mem _ h1, h2⟩

/-- C9: in `alloc`, the subtraction `aligned_size = block.size -
(aligned_ptr - block_start)` cannot underflow.  For any block `(a, s)`
located by `find_free_block` for the request `max layout.size layout.align`
with a power-of-two alignment `2 ^ k`: the aligned pointer does not precede
the block start, the alignment padding `aligned_ptr - block_start` is
strictly below the alignment (hence strictly below the block size, since
`find` guarantees `s ≥ max(layout.size, layout.align) ≥ align`), and the
resulting `aligned_size` is at least 1. -/
theorem c9_aligned_size_no_underflow
    (l : List (Nat × Nat)) (ls k a s : Nat) (hk : k ≤ 64)
    (hbound : a + 2 ^ k - 1 < USIZE)
    (hfind : find_free_block (max ls (2 ^ k)) l = some (a, s)) :
    a ≤ aligned_ptr_calc a (2 ^ k) ∧
    aligned_ptr_calc a (2 ^ k) - a < 2 ^ k ∧
    aligned_ptr_calc a (2 ^ k) - a < s ∧
    1 ≤ s - (aligned_ptr_calc a (2 ^ k) - a) := by
  obtain ⟨hmem, hsz⟩ := find_free_block_spec hfind
  have hks : 2 ^ k ≤ s := le_trans (Nat.le_max_right ls (2 ^ k)) hsz
  have hge := aligned_ptr_ge a k hk hbound
  have hle : aligned_ptr_calc a (2 ^ k) ≤ a + 2 ^ k - 1 := aligned_ptr_le a (2 ^ k)
  have hpos : 0 < 2 ^ k := Nat.two_pow_pos k
  refine ⟨hge, ?_, ?_, ?_⟩ <;> omega

/-- Witness for C9 at the concrete block list `[(24, 16)]` with a 16-byte
request at 16-byte alignment. -/
theorem c9_aligned_size_no_underflow_w :
    24 ≤ aligned_ptr_calc 24 (2 ^ 4) ∧
    aligned_ptr_calc 24 (2 ^ 4) - 24 < 2 ^ 4 ∧
    aligned_ptr_calc 24 (2 ^ 4) - 24 < 16 ∧
    1 ≤ 16 - (aligned_ptr_calc 24 (2 ^ 4) - 24) :=
  c9_aligned_size_no_underflow [(24, 16)] 16 4 24 16 (by decide) (by decide) rfl

/-- C7: every successful `alloc(size, align)` with a power-of-two alignment
(as guaranteed by `Layout`) returns a pointer divisible by the alignment.
Both success paths return `(block_ptr + align - 1) & !(align - 1)`, whose
low `k` bits the mask clears. -/
theorem c7_alignment (st : MergingAllocatorInner) (ls k : Nat)
    (palloc : Nat → Nat → Except AllocError Nat) (ptr : Nat) (hk : k ≤ 64)
    (h : (alloc st ls (2 ^ k) palloc).result = .ok ptr) :
    2 ^ k ∣ ptr := by
  unfold alloc at h
  dsimp only at h
  split at h
  next b heq =>
    simp only [alloc_finish, Except.ok.injEq] at h
    rw [← h]
    exact two_pow_dvd_aligned b.1 k hk
  next heq =>
    split at h
    next e heq2 => simp at h
    next heap_ptr heq2 =>
      split at h
      next e heq3 => simp at h
      next st2 heq3 =>
        split at h
        next heq4 => simp at h
        next b heq4 =>
          simp only [alloc_finish, Except.ok.injEq] at h
          rw [← h]
          exact two_pow_dvd_aligned b.1 k hk

/-- Witness for C7: the concrete call that returns pointer 32 at alignment
16 is 16-aligned. -/
theorem c7_alignment_w : 2 ^ 4 ∣ 32 :=
  c7_alignment (init newAllocator 24 16) 16 4 palloc_none 32 (by decide) rfl

/-- C1: when the located block's alignment-adjusted size is smaller than the
request `max(layout.size, layout.align)`, `alloc` still returns the aligned
pointer and adds `aligned_size` to `used_bytes`, while the free list (and
everything else in the state), is left unchanged, and no page request or
further search happens. -/
theorem c1_undersized_branch (st : MergingAllocatorInner) (ls la : Nat)
    (palloc : Nat → Nat → Except AllocError Nat) (a s : Nat)
    (hfind : find_free_block (max ls la) st.free_list = some (a, s))
    (hund : s - (aligned_ptr_calc a la - a) < max ls la) :
    alloc st ls la palloc =
      { result := .ok (aligned_ptr_calc a la)
        state := { st with used_bytes := st.used_bytes + (s - (aligned_ptr_calc a la - a)) }
        page_request := none
        charged := s - (aligned_ptr_calc a la - a) } := by
  have hn : ¬ (max ls la ≤ s - (aligned_ptr_calc a la - a)) := Nat.not_le.mpr hund
  unfold alloc
  dsimp only
  rw [hfind]
  unfold alloc_finish
  simp only [hn, if_false, ite_false]

/-- Witness for C1: on the list `[(24, 16)]` a 16/16 request finds the
block, computes `aligned_size = 8 < 16`, returns pointer 32, charges 8,
and leaves the block on the free list. -/
theorem c1_undersized_branch_w :
    alloc (init newAllocator 24 16) 16 16 palloc_none =
      { result := .ok 32
        state := { free_list := [(24, 16)], total_bytes := 16, used_bytes := 8 }
        page_request := none
        charged := 8 } :=
  c1_undersized_branch (init newAllocator 24 16) 16 16 palloc_none 24 16 rfl (by decide)

/-- C10: `available_bytes` computes the unguarded usize subtraction
`total_bytes - used_bytes`, and three successful `alloc(16, 16)` calls after
`init(24, 16)` (each hitting the undersized branch, which charges 8 bytes
while leaving the 16-byte block on the list) drive `used_bytes` to 24 while
`total_bytes` stays 16, so the source's subtraction underflows (the Nat
embedding truncates it to 0). -/
theorem c10_available_bytes_underflow :
    (alloc_n 16 16 palloc_none 3 (init newAllocator 24 16)).1 = true ∧
    (alloc_n 16 16 palloc_none 3 (init newAllocator 24 16)).2.used_bytes = 24 ∧
    (alloc_n 16 16 palloc_none 3 (init newAllocator 24 16)).2.total_bytes = 16 ∧
    (alloc_n 16 16 palloc_none 3 (init newAllocator 24 16)).2.total_bytes
      < (alloc_n 16 16 palloc_none 3 (init newAllocator 24 16)).2.used_bytes ∧
    available_bytes (alloc_n 16 16 palloc_none 3 (init newAllocator 24 16)).2 = 0 := by
  exact ⟨rfl, rfl, rfl, by decide, rfl⟩

/-- On success, `add_memory` inserts the extent as one block, adds `size`
to `total_bytes`, and leaves `used_bytes` alone. -/
theorem add_memory_spec {st st2 : MergingAllocatorInner} {start size : Nat}
    (h : add_memory st start size = .ok st2) :
    st2.free_list = insert_free_block (start, size) st.free_list ∧
    st2.total_bytes = st.total_bytes + size ∧
    st2.used_bytes = st.used_bytes := by
  unfold add_memory at h
  split at h
  next e heq => exact absurd h (by simp)
  next u heq =>
    injection h with h
    subst h
    exact ⟨rfl, rfl, rfl⟩

/-- Every path of `alloc` adds exactly the instrumented `charged` amount
(the source's `aligned_size` on the success paths, 0 on the error paths) to
`used_bytes`. -/
theorem alloc_state_used (st : MergingAllocatorInner) (ls la : Nat)
    (palloc : Nat → Nat → Except AllocError Nat) :
    (alloc st ls la palloc).state.used_bytes
      = st.used_bytes + (alloc st ls la palloc).charged := by
  unfold alloc
  dsimp only
  split
  next b heq =>
    simp only [alloc_finish]
    split <;> rfl
  next heq =>
    split
    next e heq2 => rfl
    next heap_ptr heq2 =>
      split
      next e heq3 => rfl
      next st2 heq3 =>
        have hu := (add_memory_spec heq3).2.2
        split
        next heq4 => simpa using hu
        next b heq4 =>
          simp only [alloc_finish]
          split <;> simp [hu]

/-- C2 counterexample: from `init(32, 16)`, the call `alloc(8, 8)` returns
pointer 32 and charges the whole block (16 bytes), so with one outstanding
allocation of size 8 the counter reads 16, and after `dealloc(32, 8, 8)` —
the same pointer with the same layout — `used_bytes` is 8, not the prior 0. -/
theorem c2_counterexample :
    (alloc (init newAllocator 32 16) 8 8 palloc_none).state.used_bytes = 16 ∧
    (dealloc (alloc (init newAllocator 32 16) 8 8 palloc_none).state 32 8 8).used_bytes = 8 ∧
    (init newAllocator 32 16).used_bytes = 0 ∧ (8 : Nat) ≠ 0 :=
  ⟨rfl, rfl, rfl, by decide⟩

/-- C2 (amended): over any sequence of interface calls, `used_bytes` is the
net integer ledger in which each `alloc` adds the amount it actually charged
(`aligned_size`, which may differ from the layout's size) and each `dealloc`
subtracts `max(layout.size, layout.align)` — provided no `dealloc` decrement
underflows; and whenever `used_bytes ≤ total_bytes`, `available_bytes()`
equals the exact difference `total_bytes - used_bytes`. -/
theorem c2_used_bytes_ledger (palloc : Nat → Nat → Except AllocError Nat) :
    (∀ (ops : List HeapOp) (st : MergingAllocatorInner),
      no_underflow palloc ops st = true →
      ((run_ops palloc ops st).1.used_bytes : Int)
        = (st.used_bytes : Int) + (run_ops palloc ops st).2) ∧
    (∀ st2 : MergingAllocatorInner, st2.used_bytes ≤ st2.total_bytes →
      (available_bytes st2 : Int) = (st2.total_bytes : Int) - (st2.used_bytes : Int)) := by
  constructor
  · intro ops
    induction ops with
    | nil =>
      intro st h
      simp [run_ops]
    | cons op rest ih =>
      intro st h
      unfold no_underflow at h
      rw [Bool.and_eq_true] at h
      obtain ⟨h1, h2⟩ := h
      have ihh := ih (run_op palloc st op).1 h2
      have hop : ((run_op palloc st op).1.used_bytes : Int)
          = (st.used_bytes : Int) + (run_op palloc st op).2 := by
        cases op with
        | allocOp ls la =>
          dsimp only [run_op]
          rw [alloc_state_used]
          push_cast
          ring
        | deallocOp pos ls la =>
          dsimp only [run_op, dealloc]
          have hle : max ls la ≤ st.used_bytes := by simpa using h1
          omega
      unfold run_ops
      dsimp only
      rw [ihh, hop]
      ring
  · intro st2 h
    unfold available_bytes
    omega

/-- Witness for the C2 ledger on the concrete trace `alloc(8,8)` then
`dealloc(32,8,8)` from `init(32,16)`: the final `used_bytes` (8) equals the
initial value (0) plus the net ledger (16 charged minus 8 released). -/
theorem c2_used_bytes_ledger_w :
    ((run_ops palloc_none [HeapOp.allocOp 8 8, HeapOp.deallocOp 32 8 8]
        (init newAllocator 32 16)).1.used_bytes : Int)
      = (((init newAllocator 32 16).used_bytes : Nat) : Int)
        + (run_ops palloc_none [HeapOp.allocOp 8 8, HeapOp.deallocOp 32 8 8]
            (init newAllocator 32 16)).2 :=
  (c2_used_bytes_ledger palloc_none).1
    [HeapOp.allocOp 8 8, HeapOp.deallocOp 32 8 8] (init newAllocator 32 16) rfl

/-- C3 counterexample: on a fresh allocator, `alloc(1024, 8)` misses,
computes `expand_size = 4096`, obtains 1 page = 4096 bytes from the page
supplier — but registers only `size = max(1024, 8) = 1024` bytes via
`add_memory`, so `total_bytes` rises by 1024, not by the 4096 bytes actually
obtained. -/
theorem c3_counterexample :
    (alloc newAllocator 1024 8 (palloc_at 16384)).page_request = some (1, 4096) ∧
    (alloc newAllocator 1024 8 (palloc_at 16384)).state.total_bytes = 1024 ∧
    (1 * 4096 : Nat) ≠ 1024 :=
  ⟨rfl, rfl, by decide⟩

/-- C3 (amended): when the first search misses, `alloc` requests
`expand_size / PAGE_SIZE` pages at page alignment, where `expand_size =
max(total_bytes, layout.size).next_power_of_two().max(PAGE_SIZE)`; it then
registers only `need = max(layout.size, layout.align)` bytes of the obtained
extent (so `total_bytes` increases by `need`, not by the full growth size),
and retries the search exactly once on the grown list: a second hit yields
that block's aligned pointer, a second miss yields the NoMemory error. -/
theorem c3_growth_registers_need (st : MergingAllocatorInner) (ls la p : Nat)
    (palloc : Nat → Nat → Except AllocError Nat)
    (hmiss : find_free_block (max ls la) st.free_list = none)
    (hp : palloc (max (next_power_of_two (max st.total_bytes ls)) PAGE_SIZE / PAGE_SIZE)
        PAGE_SIZE = .ok p)
    (hchk : checked_block st.free_list p (max ls la) = .ok ()) :
    (alloc st ls la palloc).page_request
      = some (max (next_power_of_two (max st.total_bytes ls)) PAGE_SIZE / PAGE_SIZE,
          PAGE_SIZE) ∧
    (alloc st ls la palloc).state.total_bytes = st.total_bytes + max ls la ∧
    (∀ b, find_free_block (max ls la) (insert_free_block (p, max ls la) st.free_list)
        = some b →
      (alloc st ls la palloc).result = .ok (aligned_ptr_calc b.1 la)) ∧
    (find_free_block (max ls la) (insert_free_block (p, max ls la) st.free_list) = none →
      (alloc st ls la palloc).result = .error .NoMemory) := by
  have hadd : add_memory st p (max ls la)
      = .ok { st with free_list := insert_free_block (p, max ls la) st.free_list
                      total_bytes := st.total_bytes + max ls la } := by
    unfold add_memory
    rw [hchk]
  have key : alloc st ls la palloc =
      (match find_free_block (max ls la)
          (insert_free_block (p, max ls la) st.free_list) with
       | none =>
         { result := .error .NoMemory
           state := { st with free_list := insert_free_block (p, max ls la) st.free_list
                              total_bytes := st.total_bytes + max ls la }
           page_request := some (max (next_power_of_two (max st.total_bytes ls)) PAGE_SIZE
               / PAGE_SIZE, PAGE_SIZE)
           charged := 0 }
       | some b =>
         alloc_finish
           { st with free_list := insert_free_block (p, max ls la) st.free_list
                     total_bytes := st.total_bytes + max ls la }
           (max ls la) la b
           (some (max (next_power_of_two (max st.total_bytes ls)) PAGE_SIZE
               / PAGE_SIZE, PAGE_SIZE))) := by
    unfold alloc
    simp only [hmiss, hp, hadd]
  refine ⟨?_, ?_, ?_, ?_⟩
  · rw [key]
    cases hf2 : find_free_block (max ls la)
        (insert_free_block (p, max ls la) st.free_list) with
    | none => rfl
    | some b => rfl
  · rw [key]
    cases hf2 : find_free_block (max ls la)
        (insert_free_block (p, max ls la) st.free_list) with
    | none => rfl
    | some b =>
      unfold alloc_finish
      dsimp only
      split <;> rfl
  · intro b hb
    rw [key, hb]
    rfl
  · intro hn
    rw [key, hn]

/-- Witness for the amended C3 on a fresh allocator with a supplier granting
pages at 16384: the single page request and the `total_bytes` increase by
`need = 1024`. -/
theorem c3_growth_registers_need_w :
    (alloc newAllocator 1024 8 (palloc_at 16384)).page_request
      = some (max (next_power_of_two (max newAllocator.total_bytes 1024)) PAGE_SIZE
          / PAGE_SIZE, PAGE_SIZE) ∧
    (alloc newAllocator 1024 8 (palloc_at 16384)).state.total_bytes
      = newAllocator.total_bytes + max 1024 8 := by
  have h := c3_growth_registers_need newAllocator 1024 8 16384 (palloc_at 16384) rfl rfl rfl
  exact ⟨h.1, h.2.1⟩

/-- C4 counterexample: from a single 4096-byte extent at A = 8192, the first
`alloc(1024, 8)` returns A but removes the whole 4096-byte block from the
free list (no splitting), so the second `alloc(1024, 8)` misses, issues a
page request (growth IS triggered, contrary to the claim), and returns the
supplier's address 16384, not A + 1024 = 9216. -/
theorem c4_counterexample :
    (alloc (init newAllocator 8192 4096) 1024 8 (palloc_at 16384)).result = .ok 8192 ∧
    (alloc (init newAllocator 8192 4096) 1024 8 (palloc_at 16384)).state.free_list = [] ∧
    (alloc (alloc (init newAllocator 8192 4096) 1024 8 (palloc_at 16384)).state 1024 8
        (palloc_at 16384)).page_request = some (1, 4096) ∧
    (alloc (alloc (init newAllocator 8192 4096) 1024 8 (palloc_at 16384)).state 1024 8
        (palloc_at 16384)).result = .ok 16384 ∧
    (16384 : Nat) ≠ 8192 + 1024 :=
  ⟨rfl, rfl, rfl, rfl, by decide⟩

/-- C4 (amended): the first `alloc(1024, 8)` on the 4096-byte extent at 8192
consumes the entire block — pointer 8192 returned, free list emptied,
`used_bytes = 4096` — and every further 1024-byte allocation grows through
the page supplier and returns memory outside the original extent, so the
scenario's addresses A+1024/A+2048 and the final single 4096-byte free block
never arise. -/
theorem c4_whole_block_consumed :
    alloc (init newAllocator 8192 4096) 1024 8 (palloc_at 16384) =
      { result := .ok 8192
        state := { free_list := [], total_bytes := 4096, used_bytes := 4096 }
        page_request := none
        charged := 4096 } ∧
    (alloc { free_list := [], total_bytes := 4096, used_bytes := 4096 } 1024 8
        (palloc_at 16384)).page_request = some (1, 4096) ∧
    (alloc { free_list := [], total_bytes := 4096, used_bytes := 4096 } 1024 8
        (palloc_at 16384)).result = .ok 16384 ∧
    8192 + 4096 ≤ (16384 : Nat) :=
  ⟨rfl, rfl, rfl, by decide⟩

/-! Helper lemmas for the address-order invariant of the free list. -/

theorem remove_free_block_sublist (a : Nat) :
    ∀ l : List (Nat × Nat), List.Sublist (remove_free_block a l) l := by
  intro l
  induction l with
  | nil => exact List.Sublist.refl _
  | cons c rest ih =>
    unfold remove_free_block
    by_cases h : c.1 = a
    · rw [if_pos h]; exact List.sublist_cons_self c rest
    · rw [if_neg h]; exact List.Sublist.cons₂ c ih

theorem sorted_remove (a : Nat) (l : List (Nat × Nat)) (h : SortedByAddr l) :
    SortedByAddr (remove_free_block a l) :=
  List.Pairwise.sublist (remove_free_block_sublist a l) h

theorem mem_set_size_fst {a s : Nat} :
    ∀ {l : List (Nat × Nat)} {y : Nat × Nat}, y ∈ set_size l a s →
      y.1 ∈ l.map Prod.fst := by
  intro l
  induction l with
  | nil => intro y h; simp [set_size] at h
  | cons c rest ih =>
    intro y h
    unfold set_size at h
    by_cases hc : c.1 = a
    · rw [if_pos hc] at h
      rcases List.mem_cons.mp h with h1 | h1
      · simp only [List.map_cons, List.mem_cons]
        left
        rw [h1]
        exact hc.symm
      · simp only [List.map_cons, List.mem_cons]
        right
        exact List.mem_map_of_mem Prod.fst h1
    · rw [if_neg hc] at h
      rcases List.mem_cons.mp h with h1 | h1
      · simp only [List.map_cons, List.mem_cons]
        left
        rw [h1]
      · simp only [List.map_cons, List.mem_cons]
        right
        exact ih h1

theorem sorted_set_size (a s : Nat) :
    ∀ l : List (Nat × Nat), SortedByAddr l → SortedByAddr (set_size l a s) := by
  intro l
  induction l with
  | nil => intro _; simp [set_size, SortedByAddr]
  | cons c rest ih =>
    intro h
    unfold SortedByAddr at h
    rw [List.pairwise_cons] at h
    obtain ⟨hc, hrest⟩ := h
    unfold set_size
    by_cases hca : c.1 = a
    · rw [if_pos hca]
      unfold SortedByAddr
      rw [List.pairwise_cons]
      refine ⟨?_, hrest⟩
      intro y hy
      have := hc y hy
      omega
    · rw [if_neg hca]
      unfold SortedByAddr
      rw [List.pairwise_cons]
      constructor
      · intro y hy
        have hy1 := mem_set_size_fst hy
        rcases List.mem_map.mp hy1 with ⟨z, hz, hz1⟩
        have := hc z hz
        omega
      · exact ih hrest

theorem mem_insert_free_block {b y : Nat × Nat} :
    ∀ {l : List (Nat × Nat)}, y ∈ insert_free_block b l ↔ y = b ∨ y ∈ l := by
  intro l
  induction l with
  | nil => simp [insert_free_block]
  | cons c rest ih =>
    unfold insert_free_block
    by_cases h : b.1 < c.1
    · rw [if_pos h]
      simp [List.mem_cons]
    · rw [if_neg h]
      simp only [List.mem_cons, ih]
      tauto

theorem sorted_insert (b : Nat × Nat) :
    ∀ l : List (Nat × Nat), b.1 ∉ l.map Prod.fst → SortedByAddr l →
      SortedByAddr (insert_free_block b l) := by
  intro l
  induction l with
  | nil => intro _ _; exact List.pairwise_singleton _ _
  | cons c rest ih =>
    intro hfresh hsorted
    unfold SortedByAddr at hsorted
    rw [List.pairwise_cons] at hsorted
    obtain ⟨hc, hrest⟩ := hsorted
    unfold insert_free_block
    by_cases hlt : b.1 < c.1
    · rw [if_pos hlt]
      unfold SortedByAddr
      rw [List.pairwise_cons]
      constructor
      · intro y hy
        rcases List.mem_cons.mp hy with h | h
        · rw [h]; exact hlt
        · exact lt_trans hlt (hc y h)
      · rw [List.pairwise_cons]; exact ⟨hc, hrest⟩
    · rw [if_neg hlt]
      have hne : b.1 ≠ c.1 := by
        intro he
        exact hfresh (by simp [he])
      have hcb : c.1 < b.1 := by omega
      have hfresh2 : b.1 ∉ rest.map Prod.fst := by
        intro hmem
        exact hfresh (by simp [hmem])
      unfold SortedByAddr
      rw [List.pairwise_cons]
      constructor
      · intro y hy
        rcases mem_insert_free_block.mp hy with h | h
        · rw [h]; exact hcb
        · exact hc y h
      · exact ih hfresh2 hrest

theorem insert_free_block_splice (b : Nat × Nat) :
    ∀ l : List (Nat × Nat),
      insert_free_block b l
        = l.takeWhile (fun c => decide (c.1 ≤ b.1))
            ++ b :: l.dropWhile (fun c => decide (c.1 ≤ b.1)) := by
  intro l
  induction l with
  | nil => rfl
  | cons c rest ih =>
    unfold insert_free_block
    by_cases h : b.1 < c.1
    · rw [if_pos h]
      have hn : ¬ (c.1 ≤ b.1) := by omega
      simp [List.takeWhile_cons, List.dropWhile_cons, hn]
    · rw [if_neg h]
      have hle : c.1 ≤ b.1 := Nat.le_of_not_lt h
      simp [List.takeWhile_cons, List.dropWhile_cons, hle, ih]

theorem sorted_merge_scan (ba : Nat) :
    ∀ (scan : List Nat) (lst : List (Nat × Nat)), SortedByAddr lst →
      SortedByAddr (merge_scan ba scan lst) := by
  intro scan
  induction scan with
  | nil => intro lst h; exact h
  | cons e rest ih =>
    intro lst h
    unfold merge_scan
    dsimp only
    by_cases h1 : e + size_at lst e = ba
    · rw [if_pos h1]
      exact ih _ (sorted_remove _ _ (sorted_set_size _ _ _ h))
    · rw [if_neg h1]
      by_cases h2 : ba + size_at lst ba = e
      · rw [if_pos h2]
        exact sorted_remove _ _ (sorted_set_size _ _ _ h)
      · rw [if_neg h2]
        exact ih _ h

theorem sorted_merge (a : Nat) (l : List (Nat × Nat)) (h : SortedByAddr l) :
    SortedByAddr (merge_adjacent_blocks a l) :=
  sorted_merge_scan a _ l h

/-- C5: the free list is kept sorted by strictly ascending node address:
the list after `init` on a fresh allocator is sorted; `insert_free_block`
splices the new block exactly before the first node whose address exceeds
the new block's address; and each mutating operation — insert (of a fresh
address), remove, coalesce, and hence `add_memory`, `alloc` (with a page
supplier returning fresh addresses) and `dealloc` (of a fresh address) —
preserves sortedness. -/
theorem c5_sorted_invariant :
    (∀ start size : Nat, SortedByAddr ((init newAllocator start size).free_list)) ∧
    (∀ (b : Nat × Nat) (l : List (Nat × Nat)),
      insert_free_block b l
        = l.takeWhile (fun c => decide (c.1 ≤ b.1))
            ++ b :: l.dropWhile (fun c => decide (c.1 ≤ b.1))) ∧
    (∀ (b : Nat × Nat) (l : List (Nat × Nat)), b.1 ∉ l.map Prod.fst → SortedByAddr l →
      SortedByAddr (insert_free_block b l)) ∧
    (∀ (a : Nat) (l : List (Nat × Nat)), SortedByAddr l →
      SortedByAddr (remove_free_block a l)) ∧
    (∀ (a : Nat) (l : List (Nat × Nat)), SortedByAddr l →
      SortedByAddr (merge_adjacent_blocks a l)) ∧
    (∀ (st st2 : MergingAllocatorInner) (start size : Nat), SortedByAddr st.free_list →
      start ∉ st.free_list.map Prod.fst → add_memory st start size = .ok st2 →
      SortedByAddr st2.free_list) ∧
    (∀ (st : MergingAllocatorInner) (ls la : Nat)
        (palloc : Nat → Nat → Except AllocError Nat),
      SortedByAddr st.free_list →
      (∀ n a p, palloc n a = .ok p → p ∉ st.free_list.map Prod.fst) →
      SortedByAddr (alloc st ls la palloc).state.free_list) ∧
    (∀ (st : MergingAllocatorInner) (pos ls la : Nat), SortedByAddr st.free_list →
      pos ∉ st.free_list.map Prod.fst → SortedByAddr (dealloc st pos ls la).free_list) := by
  refine ⟨?_, ?_, ?_, ?_, ?_, ?_, ?_, ?_⟩
  · intro start size
    simp [init, newAllocator, insert_free_block, SortedByAddr]
  · intro b l
    exact insert_free_block_splice b l
  · intro b l hfresh hs
    exact sorted_insert b l hfresh hs
  · intro a l hs
    exact sorted_remove a l hs
  · intro a l hs
    exact sorted_merge a l hs
  · intro st st2 start size hs hfresh hadd
    have hfl := (add_memory_spec hadd).1
    rw [hfl]
    exact sorted_insert _ _ hfresh hs
  · intro st ls la palloc hs hfresh
    unfold alloc
    dsimp only
    split
    next b heq =>
      unfold alloc_finish
      dsimp only
      split
      · exact sorted_remove _ _ hs
      · exact hs
    next heq =>
      split
      next e heq2 => exact hs
      next heap_ptr heq2 =>
        split
        next e heq3 => exact hs
        next st2 heq3 =>
          have hfl := (add_memory_spec heq3).1
          have hs2 : SortedByAddr st2.free_list := by
            rw [hfl]
            exact sorted_insert _ _ (hfresh _ _ _ heq2) hs
          split
          next heq4 => exact hs2
          next b heq4 =>
            unfold alloc_finish
            dsimp only
            split
            · exact sorted_remove _ _ hs2
            · exact hs2
  · intro st pos ls la hs hfresh
    unfold dealloc
    dsimp only
    exact sorted_merge _ _ (sorted_insert (pos, max ls la) _ hfresh hs)

/-- Witness for C5 on concrete states: sortedness after a concrete `alloc`
(on the one-block list from `init(24, 16)`) and after a concrete `dealloc`
at the fresh address 48. -/
theorem c5_sorted_invariant_w :
    SortedByAddr ((alloc (init newAllocator 24 16) 16 16 palloc_none).state.free_list) ∧
    SortedByAddr ((dealloc (init newAllocator 24 16) 48 8 8).free_list) := by
  constructor
  · refine c5_sorted_invariant.2.2.2.2.2.2.1 (init newAllocator 24 16) 16 16 palloc_none
      (by unfold SortedByAddr; decide) ?_
    intro n a p hp
    exact Except.noConfusion hp
  · exact c5_sorted_invariant.2.2.2.2.2.2.2 (init newAllocator 24 16) 48 8 8
      (by unfold SortedByAddr; decide) (by decide)

/-- Loop invariant of `checked_block`'s scan: with all node ends inside the
address space, the scan reports MemoryOverlap exactly on lists containing a
node whose range intersects the candidate range, and Ok otherwise. -/
theorem checked_block_go_spec (start new_end : Nat) :
    ∀ l : List (Nat × Nat), (∀ b ∈ l, b.1 + b.2 < USIZE) →
      ((∃ b ∈ l, start < b.1 + b.2 ∧ b.1 < new_end) →
        checked_block_go start new_end l = .error .MemoryOverlap) ∧
      ((∀ b ∈ l, ¬ (start < b.1 + b.2 ∧ b.1 < new_end)) →
        checked_block_go start new_end l = .ok ()) := by
  intro l
  induction l with
  | nil =>
    intro _
    constructor
    · rintro ⟨b, hb, _⟩
      exact absurd hb (List.not_mem_nil b)
    · intro _
      rfl
  | cons c rest ih =>
    obtain ⟨a, s⟩ := c
    intro hwf
    have hwfr : ∀ b ∈ rest, b.1 + b.2 < USIZE :=
      fun b hb => hwf b (List.mem_cons_of_mem _ hb)
    have hc := hwf (a, s) (List.mem_cons_self _ _)
    obtain ⟨ih1, ih2⟩ := ih hwfr
    unfold checked_block_go
    rw [if_neg (Nat.not_le.mpr hc)]
    by_cases hint : start < a + s ∧ a < new_end
    · rw [if_pos hint]
      constructor
      · intro _
        rfl
      · intro hall
        exact absurd hint (hall (a, s) (List.mem_cons_self _ _))
    · rw [if_neg hint]
      constructor
      · rintro ⟨b, hb, hb2⟩
        rcases List.mem_cons.mp hb with h | h
        · subst h
          exact absurd hb2 hint
        · exact ih1 ⟨b, h, hb2⟩
      · intro hall
        exact ih2 fun b hb => hall b (List.mem_cons_of_mem _ hb)

/-- For nonempty ranges, set intersection of `[start, start+size)` and
`[a, a+s)` coincides with the arithmetic test the source performs. -/
theorem intersect_iff (start size a s : Nat) (hs : 1 ≤ size) (hb : 1 ≤ s) :
    (∃ x, start ≤ x ∧ x < start + size ∧ a ≤ x ∧ x < a + s) ↔
      (start < a + s ∧ a < start + size) := by
  constructor
  · rintro ⟨x, h1, h2, h3, h4⟩
    omega
  · rintro ⟨h1, h2⟩
    refine ⟨max start a, ?_, ?_, ?_, ?_⟩ <;> omega

/-- C6: `add_memory(start, size)` fails with InvalidParam when
`start + size` overflows usize; under no overflow it fails with
MemoryOverlap exactly when the half-open range `[start, start+size)`
intersects some existing free block's range; and when neither failure
applies it inserts the extent as one free block and adds `size` to
`total_bytes` (leaving `used_bytes` alone).  In the functional embedding a
failure returns only the error, i.e. the allocator state is unchanged — as
in the source, where `checked_block` runs to completion before any
mutation. -/
theorem c6_add_memory_errors (st : MergingAllocatorInner) (start size : Nat)
    (hwf : WFBlocks st.free_list) (hsz : 1 ≤ size) :
    (USIZE ≤ start + size → add_memory st start size = .error .InvalidParam) ∧
    (start + size < USIZE →
      ((∃ b ∈ st.free_list, ∃ x, start ≤ x ∧ x < start + size ∧ b.1 ≤ x ∧ x < b.1 + b.2) ↔
        add_memory st start size = .error .MemoryOverlap)) ∧
    (start + size < USIZE →
      (∀ b ∈ st.free_list, ¬ ∃ x, start ≤ x ∧ x < start + size ∧ b.1 ≤ x ∧ x < b.1 + b.2) →
      add_memory st start size
        = .ok { st with free_list := insert_free_block (start, size) st.free_list
                        total_bytes := st.total_bytes + size }) := by
  refine ⟨?_, ?_, ?_⟩
  · intro hov
    unfold add_memory checked_block
    rw [if_pos hov]
  · intro hlt
    constructor
    · rintro ⟨b, hb, hx⟩
      have hchar : start < b.1 + b.2 ∧ b.1 < start + size := by
        rcases hx with ⟨x, h1, h2, h3, h4⟩
        constructor <;> omega
      have hgo := (checked_block_go_spec start (start + size) st.free_list
        (fun b hb => (hwf b hb).1)).1 ⟨b, hb, hchar⟩
      unfold add_memory checked_block
      rw [if_neg (Nat.not_le.mpr hlt), hgo]
    · intro heq
      by_contra hne
      have hall : ∀ b ∈ st.free_list, ¬ (start < b.1 + b.2 ∧ b.1 < start + size) := by
        intro b hb hcond
        apply hne
        refine ⟨b, hb, ?_⟩
        exact (intersect_iff start size b.1 b.2 hsz (hwf b hb).2).mpr hcond
      have hok := (checked_block_go_spec start (start + size) st.free_list
        (fun b hb => (hwf b hb).1)).2 hall
      unfold add_memory checked_block at heq
      rw [if_neg (Nat.not_le.mpr hlt), hok] at heq
      exact Except.noConfusion heq
  · intro hlt hall
    have hall2 : ∀ b ∈ st.free_list, ¬ (start < b.1 + b.2 ∧ b.1 < start + size) := by
      intro b hb hcond
      exact hall b hb ((intersect_iff start size b.1 b.2 hsz (hwf b hb).2).mpr hcond)
    have hok := (checked_block_go_spec start (start + size) st.free_list
      (fun b hb => (hwf b hb).1)).2 hall2
    unfold add_memory checked_block
    rw [if_neg (Nat.not_le.mpr hlt), hok]

/-- Witness for C6: registering the non-overlapping extent `[100, 116)` next
to the free block `[32, 48)` succeeds, inserting one block and adding 16 to
`total_bytes`. -/
theorem c6_add_memory_errors_w :
    add_memory { free_list := [(32, 16)], total_bytes := 16, used_bytes := 0 } 100 16
      = .ok { free_list := [(32, 16), (100, 16)], total_bytes := 32, used_bytes := 0 } := by
  have hwf : WFBlocks ([(32, 16)] : List (Nat × Nat)) := by
    unfold WFBlocks USIZE
    decide
  have hnone : ∀ b ∈ ([(32, 16)] : List (Nat × Nat)),
      ¬ ∃ x, 100 ≤ x ∧ x < 100 + 16 ∧ b.1 ≤ x ∧ x < b.1 + b.2 := by
    intro b hb hx
    rw [List.mem_singleton] at hb
    subst hb
    rcases hx with ⟨x, h1, h2, h3, h4⟩
    simp only at h3 h4
    omega
  exact (c6_add_memory_errors ⟨[(32, 16)], 16, 0⟩ 100 16 hwf (by decide)).2.2
    (by decide) hnone

/-! Helper lemmas for reasoning about the coalescing scan: how the
through-the-pointer reads (`size_at`), writes (`set_size`) and unlinks
(`remove_free_block`) act on a decomposed list. -/

theorem size_at_cons_self (a s : Nat) (r : List (Nat × Nat)) :
    size_at ((a, s) :: r) a = s := by
  simp [size_at]

theorem size_at_cons_ne {c : Nat × Nat} (a : Nat) (h : c.1 ≠ a) (r : List (Nat × Nat)) :
    size_at (c :: r) a = size_at r a := by
  obtain ⟨c1, c2⟩ := c
  simp only [size_at]
  rw [if_neg h]

theorem size_at_append (L r : List (Nat × Nat)) (a : Nat) (h : a ∉ L.map Prod.fst) :
    size_at (L ++ r) a = size_at r a := by
  induction L with
  | nil => rfl
  | cons c rest ih =>
    have hc : c.1 ≠ a := by
      intro he
      exact h (by simp [← he])
    have h2 : a ∉ rest.map Prod.fst := by
      intro hm
      exact h (by simp [hm])
    rw [List.cons_append, size_at_cons_ne a hc, ih h2]

theorem set_size_cons_self (a s0 s : Nat) (r : List (Nat × Nat)) :
    set_size ((a, s0) :: r) a s = (a, s) :: r := by
  simp [set_size]

theorem set_size_cons_ne {c : Nat × Nat} (a s : Nat) (h : c.1 ≠ a) (r : List (Nat × Nat)) :
    set_size (c :: r) a s = c :: set_size r a s := by
  obtain ⟨c1, c2⟩ := c
  simp only [set_size]
  rw [if_neg h]

theorem set_size_append (L r : List (Nat × Nat)) (a s : Nat) (h : a ∉ L.map Prod.fst) :
    set_size (L ++ r) a s = L ++ set_size r a s := by
  induction L with
  | nil => rfl
  | cons c rest ih =>
    have hc : c.1 ≠ a := by
      intro he
      exact h (by simp [← he])
    have h2 : a ∉ rest.map Prod.fst := by
      intro hm
      exact h (by simp [hm])
    rw [List.cons_append, set_size_cons_ne a s hc, ih h2, List.cons_append]

theorem remove_cons_self (a s : Nat) (r : List (Nat × Nat)) :
    remove_free_block a ((a, s) :: r) = r := by
  simp [remove_free_block]

theorem remove_cons_ne {c : Nat × Nat} (a : Nat) (h : c.1 ≠ a) (r : List (Nat × Nat)) :
    remove_free_block a (c :: r) = c :: remove_free_block a r := by
  obtain ⟨c1, c2⟩ := c
  simp only [remove_free_block]
  rw [if_neg h]

theorem remove_append (L r : List (Nat × Nat)) (a : Nat) (h : a ∉ L.map Prod.fst) :
    remove_free_block a (L ++ r) = L ++ remove_free_block a r := by
  induction L with
  | nil => rfl
  | cons c rest ih =>
    have hc : c.1 ≠ a := by
      intro he
      exact h (by simp [← he])
    have h2 : a ∉ rest.map Prod.fst := by
      intro hm
      exact h (by simp [hm])
    rw [List.cons_append, remove_cons_ne a hc, ih h2, List.cons_append]

/-- The first entry of `l` whose address is `a` (whose size `size_at`
reads) is itself an entry of `l`. -/
theorem size_at_mem :
    ∀ (l : List (Nat × Nat)) (a : Nat), a ∈ l.map Prod.fst → (a, size_at l a) ∈ l := by
  intro l
  induction l with
  | nil => intro a h; simp at h
  | cons c rest ih =>
    intro a h
    obtain ⟨c1, c2⟩ := c
    by_cases hc : c1 = a
    · subst hc
      rw [size_at_cons_self]
      exact List.mem_cons_self _ _
    · rw [size_at_cons_ne a hc]
      have h2 : a ∈ rest.map Prod.fst := by
        rcases List.mem_map.mp h with ⟨y, hy, hfst⟩
        rcases List.mem_cons.mp hy with h3 | h3
        · exact absurd (by rw [← hfst, h3]) (Ne.symm hc)
        · exact List.mem_map.mpr ⟨y, h3, hfst⟩
      exact List.mem_cons_of_mem _ (ih a h2)

/-- A scan segment in which no visited address triggers either adjacency
test leaves the list untouched and continues with the rest of the scan. -/
theorem merge_scan_skip (ba : Nat) (s2 : List Nat) (lst : List (Nat × Nat)) :
    ∀ s1 : List Nat,
      (∀ e ∈ s1, e + size_at lst e ≠ ba ∧ ba + size_at lst ba ≠ e) →
      merge_scan ba (s1 ++ s2) lst = merge_scan ba s2 lst := by
  intro s1
  induction s1 with
  | nil => intro _; rfl
  | cons e rest ih =>
    intro h
    obtain ⟨h1, h2⟩ := h e (List.mem_cons_self _ _)
    rw [List.cons_append]
    simp only [merge_scan]
    rw [if_neg h1, if_neg h2]
    exact ih fun x hx => h x (List.mem_cons_of_mem _ hx)

/-- A full scan with no matching address is the identity. -/
theorem merge_scan_no_match (ba : Nat) (lst : List (Nat × Nat)) :
    ∀ scan : List Nat,
      (∀ e ∈ scan, e + size_at lst e ≠ ba ∧ ba + size_at lst ba ≠ e) →
      merge_scan ba scan lst = lst := by
  intro scan
  induction scan with
  | nil => intro _; rfl
  | cons e rest ih =>
    intro h
    obtain ⟨h1, h2⟩ := h e (List.mem_cons_self _ _)
    simp only [merge_scan]
    rw [if_neg h1, if_neg h2]
    exact ih fun x hx => h x (List.mem_cons_of_mem _ hx)

/-- One scan step where the visited address matches neither adjacency test. -/
theorem merge_scan_step_none (ba e : Nat) (scan : List Nat) (lst : List (Nat × Nat))
    (h1 : e + size_at lst e ≠ ba) (h2 : ba + size_at lst ba ≠ e) :
    merge_scan ba (e :: scan) lst = merge_scan ba scan lst := by
  simp only [merge_scan]
  rw [if_neg h1, if_neg h2]

/-- One scan step where the visited node ends at the block's start: the
block absorbs the node's size and the node is unlinked; the scan goes on. -/
theorem merge_scan_step_pred (ba e : Nat) (scan : List Nat) (lst : List (Nat × Nat))
    (h1 : e + size_at lst e = ba) :
    merge_scan ba (e :: scan) lst
      = merge_scan ba scan
          (remove_free_block e (set_size lst ba (size_at lst ba + size_at lst e))) := by
  simp only [merge_scan]
  rw [if_pos h1]

/-- One scan step where the visited node starts at the block's current end:
the node absorbs the block's size, the block is unlinked, the scan stops. -/
theorem merge_scan_step_succ (ba e : Nat) (scan : List Nat) (lst : List (Nat × Nat))
    (h1 : e + size_at lst e ≠ ba) (h2 : ba + size_at lst ba = e) :
    merge_scan ba (e :: scan) lst
      = remove_free_block ba (set_size lst e (size_at lst e + size_at lst ba)) := by
  simp only [merge_scan]
  rw [if_neg h1, if_pos h2]

theorem chained_tail {c : Nat × Nat} {rest : List (Nat × Nat)}
    (h : ChainedBlocks (c :: rest)) : ChainedBlocks rest := by
  obtain ⟨hpw, hsz⟩ := h
  rw [List.pairwise_cons] at hpw
  exact ⟨hpw.2, fun b hb => hsz b (List.mem_cons_of_mem _ hb)⟩

/-- On a well-formed (sorted, disjoint, nonempty) list, reading a node's
size through its address gives that node's size. -/
theorem size_at_of_chained :
    ∀ {l : List (Nat × Nat)} {a s : Nat}, ChainedBlocks l → (a, s) ∈ l →
      size_at l a = s := by
  intro l
  induction l with
  | nil => intro a s _ hm; simp at hm
  | cons c rest ih =>
    intro a s hch hm
    rcases List.mem_cons.mp hm with h | h
    · rw [← h]
      exact size_at_cons_self a s rest
    · have hc : c.1 ≠ a := by
        obtain ⟨hpw, hsz⟩ := hch
        rw [List.pairwise_cons] at hpw
        have h1 := hpw.1 (a, s) h
        have h2 := hsz c (List.mem_cons_self _ _)
        omega
      rw [size_at_cons_ne a hc]
      exact ih (chained_tail hch) h

/-- Coalescing characterization, no-adjacency case: when no node ends at the
block's start and no node starts at the block's end, the scan changes
nothing. -/
theorem merge_no_adjacency (l : List (Nat × Nat)) (ba bs : Nat)
    (hch : ChainedBlocks l) (hmem : (ba, bs) ∈ l)
    (hnopred : ∀ y ∈ l, y.1 + y.2 ≠ ba)
    (hnosucc : ∀ y ∈ l, y.1 ≠ ba + bs) :
    merge_adjacent_blocks ba l = l := by
  have hba : size_at l ba = bs := size_at_of_chained hch hmem
  unfold merge_adjacent_blocks
  apply merge_scan_no_match
  intro e he
  constructor
  · exact hnopred _ (size_at_mem l e he)
  · rw [hba]
    intro heq
    rcases List.mem_map.mp he with ⟨y, hy, hfst⟩
    exact hnosucc y hy (by omega)

/-- Coalescing characterization, successor case: when no node ends at the
block's start and the node right after the block starts exactly at the
block's end, that node absorbs the block's size (keeping its own, higher
address) and the block is unlinked. -/
theorem merge_successor_absorbs (L1 R : List (Nat × Nat)) (ba bs sa ss : Nat)
    (hch : ChainedBlocks (L1 ++ (ba, bs) :: (sa, ss) :: R))
    (hadj : ba + bs = sa)
    (hnopred : ∀ y ∈ L1 ++ (ba, bs) :: (sa, ss) :: R, y.1 + y.2 ≠ ba) :
    merge_adjacent_blocks ba (L1 ++ (ba, bs) :: (sa, ss) :: R)
      = L1 ++ (sa, ss + bs) :: R := by
  obtain ⟨hpw, hsz⟩ := hch
  rw [List.pairwise_append] at hpw
  obtain ⟨hpwL1, hpwrest, hcross⟩ := hpw
  have hbs : 1 ≤ bs := hsz (ba, bs) (by simp)
  have hss : 1 ≤ ss := hsz (sa, ss) (by simp)
  have hbaL1 : ba ∉ L1.map Prod.fst := by
    intro hm
    rcases List.mem_map.mp hm with ⟨y, hy, hf⟩
    have h1 := hcross y hy (ba, bs) (by simp)
    have h2 := hsz y (List.mem_append_left _ hy)
    omega
  have hsaL1 : sa ∉ L1.map Prod.fst := by
    intro hm
    rcases List.mem_map.mp hm with ⟨y, hy, hf⟩
    have h1 := hcross y hy (sa, ss) (by simp)
    have h2 := hsz y (List.mem_append_left _ hy)
    omega
  have hbane : (ba, bs).1 ≠ sa := by
    dsimp only
    omega
  have hba : size_at (L1 ++ (ba, bs) :: (sa, ss) :: R) ba = bs := by
    rw [size_at_append _ _ _ hbaL1, size_at_cons_self]
  have hsa : size_at (L1 ++ (ba, bs) :: (sa, ss) :: R) sa = ss := by
    rw [size_at_append _ _ _ hsaL1, size_at_cons_ne _ hbane, size_at_cons_self]
  have hscan : (L1 ++ (ba, bs) :: (sa, ss) :: R).map Prod.fst
      = L1.map Prod.fst ++ (ba :: sa :: R.map Prod.fst) := by simp
  have hskip : ∀ e ∈ L1.map Prod.fst,
      e + size_at (L1 ++ (ba, bs) :: (sa, ss) :: R) e ≠ ba ∧
      ba + size_at (L1 ++ (ba, bs) :: (sa, ss) :: R) ba ≠ e := by
    intro e he
    constructor
    · have hmem : e ∈ (L1 ++ (ba, bs) :: (sa, ss) :: R).map Prod.fst := by
        rw [hscan]
        exact List.mem_append_left _ he
      exact hnopred _ (size_at_mem _ e hmem)
    · rw [hba]
      intro heq
      rcases List.mem_map.mp he with ⟨y, hy, hf⟩
      have h1 := hcross y hy (ba, bs) (by simp)
      have h2 := hsz y (List.mem_append_left _ hy)
      omega
  unfold merge_adjacent_blocks
  rw [hscan]
  rw [merge_scan_skip ba (ba :: sa :: R.map Prod.fst)
    (L1 ++ (ba, bs) :: (sa, ss) :: R) (L1.map Prod.fst) hskip]
  rw [merge_scan_step_none ba ba (sa :: R.map Prod.fst) _
    (by rw [hba]; omega) (by rw [hba]; omega)]
  rw [merge_scan_step_succ ba sa (R.map Prod.fst) _
    (by rw [hsa]; omega) (by rw [hba]; exact hadj)]
  rw [hba, hsa]
  rw [set_size_append _ _ _ _ hsaL1, set_size_cons_ne _ _ hbane, set_size_cons_self]
  rw [remove_append _ _ _ hbaL1, remove_cons_self]

/-- Coalescing characterization, predecessor case: when the node right
before the block ends exactly at the block's start, the block absorbs that
node's size while keeping its own (higher) start address, and the node is
unlinked; the scan then continues with the enlarged block, so it can only
match a successor at the enlarged end `ba + bs + ps` (excluded here by
hypothesis), not at the original end `ba + bs`. -/
theorem merge_predecessor_absorbs (L1 R : List (Nat × Nat)) (pa ps ba bs : Nat)
    (hch : ChainedBlocks (L1 ++ (pa, ps) :: (ba, bs) :: R))
    (hadj : pa + ps = ba)
    (hnodyn : ∀ y ∈ L1 ++ (pa, ps) :: (ba, bs) :: R, y.1 ≠ ba + bs + ps) :
    merge_adjacent_blocks ba (L1 ++ (pa, ps) :: (ba, bs) :: R)
      = L1 ++ (ba, bs + ps) :: R := by
  obtain ⟨hpw, hsz⟩ := hch
  rw [List.pairwise_append] at hpw
  obtain ⟨hpwL1, hpwrest, hcross⟩ := hpw
  rw [List.pairwise_cons] at hpwrest
  obtain ⟨hpale, hpwrest2⟩ := hpwrest
  rw [List.pairwise_cons] at hpwrest2
  obtain ⟨hbale, hpwR⟩ := hpwrest2
  have hps : 1 ≤ ps := hsz (pa, ps) (by simp)
  have hbs : 1 ≤ bs := hsz (ba, bs) (by simp)
  have hpaL1 : pa ∉ L1.map Prod.fst := by
    intro hm
    rcases List.mem_map.mp hm with ⟨y, hy, hf⟩
    have h1 := hcross y hy (pa, ps) (by simp)
    have h2 := hsz y (List.mem_append_left _ hy)
    omega
  have hbaL1 : ba ∉ L1.map Prod.fst := by
    intro hm
    rcases List.mem_map.mp hm with ⟨y, hy, hf⟩
    have h1 := hcross y hy (ba, bs) (by simp)
    have h2 := hsz y (List.mem_append_left _ hy)
    omega
  have hpane : (pa, ps).1 ≠ ba := by
    dsimp only
    omega
  have hpa : size_at (L1 ++ (pa, ps) :: (ba, bs) :: R) pa = ps := by
    rw [size_at_append _ _ _ hpaL1, size_at_cons_self]
  have hba : size_at (L1 ++ (pa, ps) :: (ba, bs) :: R) ba = bs := by
    rw [size_at_append _ _ _ hbaL1, size_at_cons_ne _ hpane, size_at_cons_self]
  have hscan : (L1 ++ (pa, ps) :: (ba, bs) :: R).map Prod.fst
      = L1.map Prod.fst ++ (pa :: ba :: R.map Prod.fst) := by simp
  have hskip : ∀ e ∈ L1.map Prod.fst,
      e + size_at (L1 ++ (pa, ps) :: (ba, bs) :: R) e ≠ ba ∧
      ba + size_at (L1 ++ (pa, ps) :: (ba, bs) :: R) ba ≠ e := by
    intro e he
    constructor
    · intro heq
      have hm2 : e ∈ (L1 ++ (pa, ps) :: (ba, bs) :: R).map Prod.fst := by
        rw [hscan]
        exact List.mem_append_left _ he
      have hmem2 := size_at_mem _ e hm2
      rcases List.mem_append.mp hmem2 with hin | hin
      · have h1 := hcross _ hin (pa, ps) (by simp)
        omega
      · rcases List.mem_cons.mp hin with h | h
        · have hepa : e = pa := congrArg Prod.fst h
          exact hpaL1 (hepa ▸ he)
        · rcases List.mem_cons.mp h with h2 | h2
          · have heba : e = ba := congrArg Prod.fst h2
            exact hbaL1 (heba ▸ he)
          · have h1 := hbale _ h2
            omega
    · rw [hba]
      intro heq
      rcases List.mem_map.mp he with ⟨y, hy, hf⟩
      have h1 := hcross y hy (ba, bs) (by simp)
      have h2 := hsz y (List.mem_append_left _ hy)
      omega
  unfold merge_adjacent_blocks
  rw [hscan]
  rw [merge_scan_skip ba (pa :: ba :: R.map Prod.fst)
    (L1 ++ (pa, ps) :: (ba, bs) :: R) (L1.map Prod.fst) hskip]
  rw [merge_scan_step_pred ba pa (ba :: R.map Prod.fst) _ (by rw [hpa]; exact hadj)]
  rw [hba, hpa]
  rw [set_size_append _ _ _ _ hbaL1, set_size_cons_ne _ _ hpane, set_size_cons_self]
  rw [remove_append _ _ _ hpaL1, remove_cons_self]
  have hba2 : size_at (L1 ++ (ba, bs + ps) :: R) ba = bs + ps := by
    rw [size_at_append _ _ _ hbaL1, size_at_cons_self]
  rw [merge_scan_step_none ba ba (R.map Prod.fst) _
    (by rw [hba2]; omega) (by rw [hba2]; omega)]
  apply merge_scan_no_match
  intro e he
  rcases List.mem_map.mp he with ⟨r, hr, hf⟩
  constructor
  · intro heq
    have hm2 : e ∈ (L1 ++ (ba, bs + ps) :: R).map Prod.fst := by
      simp only [List.map_append, List.map_cons, List.mem_append, List.mem_cons]
      right
      right
      rw [← hf]
      exact List.mem_map_of_mem Prod.fst hr
    have hmem2 := size_at_mem _ e hm2
    rcases List.mem_append.mp hmem2 with hin | hin
    · have h1 := hcross _ hin r (by simp [hr])
      have h2 := hsz _ (List.mem_append_left _ hin)
      omega
    · rcases List.mem_cons.mp hin with h | h
      · have heba : e = ba := congrArg Prod.fst h
        have h1 := hbale r hr
        omega
      · have h1 := hbale _ h
        omega
  · rw [hba2]
    intro heq
    have h1 := hnodyn r (by simp [hr])
    omega

/-- Coalescing characterization, continuation case: after absorbing its
predecessor the block's recorded size has grown by `ps`, and the scan
continues; a node starting at the enlarged end `ba + bs + ps` is then
absorbed as a successor (even though it is not adjacent to the block's
original extent), after which the scan stops. -/
theorem merge_continues_after_predecessor (L1 R : List (Nat × Nat)) (pa ps ba bs ts : Nat)
    (hch : ChainedBlocks (L1 ++ (pa, ps) :: (ba, bs) :: (ba + bs + ps, ts) :: R))
    (hadj : pa + ps = ba) :
    merge_adjacent_blocks ba (L1 ++ (pa, ps) :: (ba, bs) :: (ba + bs + ps, ts) :: R)
      = L1 ++ (ba + bs + ps, ts + (bs + ps)) :: R := by
  obtain ⟨hpw, hsz⟩ := hch
  rw [List.pairwise_append] at hpw
  obtain ⟨hpwL1, hpwrest, hcross⟩ := hpw
  rw [List.pairwise_cons] at hpwrest
  obtain ⟨hpale, hpwrest2⟩ := hpwrest
  rw [List.pairwise_cons] at hpwrest2
  obtain ⟨hbale, hpwrest3⟩ := hpwrest2
  rw [List.pairwise_cons] at hpwrest3
  obtain ⟨htale, hpwR⟩ := hpwrest3
  have hps : 1 ≤ ps := hsz (pa, ps) (by simp)
  have hbs : 1 ≤ bs := hsz (ba, bs) (by simp)
  have hts : 1 ≤ ts := hsz (ba + bs + ps, ts) (by simp)
  have hpaL1 : pa ∉ L1.map Prod.fst := by
    intro hm
    rcases List.mem_map.mp hm with ⟨y, hy, hf⟩
    have h1 := hcross y hy (pa, ps) (by simp)
    have h2 := hsz y (List.mem_append_left _ hy)
    omega
  have hbaL1 : ba ∉ L1.map Prod.fst := by
    intro hm
    rcases List.mem_map.mp hm with ⟨y, hy, hf⟩
    have h1 := hcross y hy (ba, bs) (by simp)
    have h2 := hsz y (List.mem_append_left _ hy)
    omega
  have htaL1 : ba + bs + ps ∉ L1.map Prod.fst := by
    intro hm
    rcases List.mem_map.mp hm with ⟨y, hy, hf⟩
    have h1 := hcross y hy (ba + bs + ps, ts) (by simp)
    have h2 := hsz y (List.mem_append_left _ hy)
    omega
  have hpane : (pa, ps).1 ≠ ba := by
    dsimp only
    omega
  have hpane2 : (pa, ps).1 ≠ ba + bs + ps := by
    dsimp only
    omega
  have hbane2 : (ba, bs).1 ≠ ba + bs + ps := by
    dsimp only
    omega
  have hbane3 : (ba, bs + ps).1 ≠ ba + bs + ps := by
    dsimp only
    omega
  have hpa : size_at (L1 ++ (pa, ps) :: (ba, bs) :: (ba + bs + ps, ts) :: R) pa = ps := by
    rw [size_at_append _ _ _ hpaL1, size_at_cons_self]
  have hba : size_at (L1 ++ (pa, ps) :: (ba, bs) :: (ba + bs + ps, ts) :: R) ba = bs := by
    rw [size_at_append _ _ _ hbaL1, size_at_cons_ne _ hpane, size_at_cons_self]
  have hscan : (L1 ++ (pa, ps) :: (ba, bs) :: (ba + bs + ps, ts) :: R).map Prod.fst
      = L1.map Prod.fst ++ (pa :: ba :: (ba + bs + ps) :: R.map Prod.fst) := by simp
  have hskip : ∀ e ∈ L1.map Prod.fst,
      e + size_at (L1 ++ (pa, ps) :: (ba, bs) :: (ba + bs + ps, ts) :: R) e ≠ ba ∧
      ba + size_at (L1 ++ (pa, ps) :: (ba, bs) :: (ba + bs + ps, ts) :: R) ba ≠ e := by
    intro e he
    constructor
    · intro heq
      have hm2 : e ∈ (L1 ++ (pa, ps) :: (ba, bs) :: (ba + bs + ps, ts) :: R).map Prod.fst := by
        rw [hscan]
        exact List.mem_append_left _ he
      have hmem2 := size_at_mem _ e hm2
      rcases List.mem_append.mp hmem2 with hin | hin
      · have h1 := hcross _ hin (pa, ps) (by simp)
        omega
      · rcases List.mem_cons.mp hin with h | h
        · have hepa : e = pa := congrArg Prod.fst h
          exact hpaL1 (hepa ▸ he)
        · rcases List.mem_cons.mp h with h2 | h2
          · have heba : e = ba := congrArg Prod.fst h2
            exact hbaL1 (heba ▸ he)
          · rcases List.mem_cons.mp h2 with h3 | h3
            · have heta : e = ba + bs + ps := congrArg Prod.fst h3
              exact htaL1 (heta ▸ he)
            · have h1 := htale _ h3
              omega
    · rw [hba]
      intro heq
      rcases List.mem_map.mp he with ⟨y, hy, hf⟩
      have h1 := hcross y hy (ba, bs) (by simp)
      have h2 := hsz y (List.mem_append_left _ hy)
      omega
  unfold merge_adjacent_blocks
  rw [hscan]
  rw [merge_scan_skip ba (pa :: ba :: (ba + bs + ps) :: R.map Prod.fst)
    (L1 ++ (pa, ps) :: (ba, bs) :: (ba + bs + ps, ts) :: R) (L1.map Prod.fst) hskip]
  rw [merge_scan_step_pred ba pa (ba :: (ba + bs + ps) :: R.map Prod.fst) _
    (by rw [hpa]; exact hadj)]
  rw [hba, hpa]
  rw [set_size_append _ _ _ _ hbaL1, set_size_cons_ne _ _ hpane, set_size_cons_self]
  rw [remove_append _ _ _ hpaL1, remove_cons_self]
  have hba2 : size_at (L1 ++ (ba, bs + ps) :: (ba + bs + ps, ts) :: R) ba = bs + ps := by
    rw [size_at_append _ _ _ hbaL1, size_at_cons_self]
  have hta2 : size_at (L1 ++ (ba, bs + ps) :: (ba + bs + ps, ts) :: R) (ba + bs + ps)
      = ts := by
    rw [size_at_append _ _ _ htaL1, size_at_cons_ne _ hbane3, size_at_cons_self]
  rw [merge_scan_step_none ba ba ((ba + bs + ps) :: R.map Prod.fst) _
    (by rw [hba2]; omega) (by rw [hba2]; omega)]
  rw [merge_scan_step_succ ba (ba + bs + ps) (R.map Prod.fst) _
    (by rw [hta2]; omega) (by rw [hba2]; omega)]
  rw [hta2, hba2]
  rw [set_size_append _ _ _ _ htaL1, set_size_cons_ne _ _ hbane3, set_size_cons_self]
  rw [remove_append _ _ _ hbaL1, remove_cons_self]

/-- C8: on a well-formed free list, the coalescing scan behaves as follows.
(i) Predecessor absorption: a node whose end equals the block's start has
its size added to the block (which keeps its own address) and is removed,
and the scan continues.  (ii) Successor absorption: the first node whose
start equals the block's (current) end absorbs the block's size, the block
is removed, and the scan stops.  (iii) With no adjacency the list is
unchanged.  (iv) The scan really does continue after a predecessor
absorption: a node starting at the enlarged end `ba + bs + ps` is then
absorbed as successor.  Note the successor test uses the block's current
size, so after case (i) the matching address is `ba + bs + ps`, not the
original end `ba + bs` (case (i) therefore requires no node at the enlarged
end). -/
theorem c8_merge_characterization :
    (∀ (L1 R : List (Nat × Nat)) (pa ps ba bs : Nat),
      ChainedBlocks (L1 ++ (pa, ps) :: (ba, bs) :: R) → pa + ps = ba →
      (∀ y ∈ L1 ++ (pa, ps) :: (ba, bs) :: R, y.1 ≠ ba + bs + ps) →
      merge_adjacent_blocks ba (L1 ++ (pa, ps) :: (ba, bs) :: R)
        = L1 ++ (ba, bs + ps) :: R) ∧
    (∀ (L1 R : List (Nat × Nat)) (ba bs sa ss : Nat),
      ChainedBlocks (L1 ++ (ba, bs) :: (sa, ss) :: R) → ba + bs = sa →
      (∀ y ∈ L1 ++ (ba, bs) :: (sa, ss) :: R, y.1 + y.2 ≠ ba) →
      merge_adjacent_blocks ba (L1 ++ (ba, bs) :: (sa, ss) :: R)
        = L1 ++ (sa, ss + bs) :: R) ∧
    (∀ (l : List (Nat × Nat)) (ba bs : Nat),
      ChainedBlocks l → (ba, bs) ∈ l →
      (∀ y ∈ l, y.1 + y.2 ≠ ba) → (∀ y ∈ l, y.1 ≠ ba + bs) →
      merge_adjacent_blocks ba l = l) ∧
    (∀ (L1 R : List (Nat × Nat)) (pa ps ba bs ts : Nat),
      ChainedBlocks (L1 ++ (pa, ps) :: (ba, bs) :: (ba + bs + ps, ts) :: R) →
      pa + ps = ba →
      merge_adjacent_blocks ba (L1 ++ (pa, ps) :: (ba, bs) :: (ba + bs + ps, ts) :: R)
        = L1 ++ (ba + bs + ps, ts + (bs + ps)) :: R) := by
  refine ⟨?_, ?_, ?_, ?_⟩
  · intro L1 R pa ps ba bs hch hadj hno
    exact merge_predecessor_absorbs L1 R pa ps ba bs hch hadj hno
  · intro L1 R ba bs sa ss hch hadj hno
    exact merge_successor_absorbs L1 R ba bs sa ss hch hadj hno
  · intro l ba bs hch hmem h1 h2
    exact merge_no_adjacency l ba bs hch hmem h1 h2
  · intro L1 R pa ps ba bs ts hch hadj
    exact merge_continues_after_predecessor L1 R pa ps ba bs ts hch hadj

/-- Witness for C8, successor case at concrete blocks: releasing the block
at 32 next to the free block at 48 = 32 + 16 folds it into the node at 48,
which keeps its address and grows to 24 bytes. -/
theorem c8_merge_characterization_w :
    merge_adjacent_blocks 32 [(0, 16), (32, 16), (48, 8)] = [(0, 16), (48, 24)] := by
  have h := c8_merge_characterization.2.1 [(0, 16)] [] 32 16 48 8
    (by unfold ChainedBlocks; constructor
        · decide
        · decide)
    (by decide) (by decide)
  exact h

end Merging
